import Mathlib

/-
Verification development for the FactorFrameworkV2 repository.

Shallow embedding conventions:
- Python floats are modelled as exact rationals (ℚ) where only field
  arithmetic and comparisons occur, and as reals (ℝ) where square roots
  appear (summary statistics, correlation coefficients).  A float NaN
  ("undefined") is modelled as `Option.none`.
- Python dicts keyed by a fixed set of metric names are modelled as a
  structure with one `Option` field per key; `dict.get(k, default)` is
  `Option.getD`.
- Exceptions are modelled with `Except PyErr`; a Python call that omits a
  required positional argument is modelled by an explicit argument-binding
  step that yields `PyErr.typeError`.
- numpy argsort is modelled as a stable sort of the index list
  (ties broken by original position), which matches numpy's behaviour on
  the concrete inputs used here.
-/

namespace FactorFrameworkV2

/-! ## Admission rule (factor_library/admission.py) -/

/-- Threshold configuration of `AdmissionRule` (admission.py lines 12-15),
with the dataclass defaults 0.02 / 0.4 / 0.6 / 0.1 packaged separately in
`defaultAdmissionRule`. -/
structure AdmissionRule where
  min_rank_ic : ℚ
  min_rank_ic_ir : ℚ
  max_top_turnover_20_mean : ℚ
  min_monotonic_mean : ℚ

/-- The dataclass default thresholds of `AdmissionRule`. -/
def defaultAdmissionRule : AdmissionRule :=
  ⟨2/100, 2/5, 3/5, 1/10⟩

/-- The four metric keys that `AdmissionRule.is_pass` reads from the
metrics dict; a missing key is `none`. -/
structure Metrics where
  rank_ic_mean : Option ℚ
  rank_ic_ir : Option ℚ
  top_turnover_20_mean : Option ℚ
  monotonic_mean : Option ℚ

/-- `AdmissionRule.is_pass(metrics, horizon)` (admission.py lines 17-33):
reads the four metrics with `dict.get` defaults 0.0 / 0.0 / 1.0 / 0.0 and
returns the conjunction of the four threshold clauses. -/
def AdmissionRule.is_pass (r : AdmissionRule) (metrics : Metrics) (horizon : ℤ) : Bool :=
  let rank_ic_mean := metrics.rank_ic_mean.getD 0
  let rank_ic_ir := metrics.rank_ic_ir.getD 0
  let top_turnover_20_mean := metrics.top_turnover_20_mean.getD 1
  let monotonic_mean := metrics.monotonic_mean.getD 0
  decide (r.min_rank_ic ≤ |rank_ic_mean|) &&
    decide (r.min_rank_ic_ir ≤ |rank_ic_ir|) &&
    decide (top_turnover_20_mean / (horizon : ℚ) ≤ r.max_top_turnover_20_mean) &&
    decide (r.min_monotonic_mean ≤ |monotonic_mean|)

/-! ## Long-short step of CommonFactorEvaluator.evaluate
(evaluation/builtins.py lines 392-395)

After the column reindexing step the grouped table `group_ret_by_day` has
column labels `0..q-1`; one date of it is a row of `q` optional mean
returns (an unpopulated bin on that date is a missing cell).  The code
takes `max_grp = columns.max()`, `min_grp = columns.min()` and subtracts
the two columns, with pandas NaN propagation on the subtraction. -/

/-- One date of the grouped-return table after reindexing: the cell of bin
`b` is entry `b` of the list, `none` when the bin is unpopulated. -/
abbrev GroupRow : Type := List (Option ℚ)

/-- pandas subtraction of two possibly-missing cells: NaN propagates. -/
def optSub : Option ℚ → Option ℚ → Option ℚ
  | some a, some b => some (a - b)
  | _, _ => none

/-- `group_ret_by_day.columns.max()` where the columns are `0..q-1`. -/
def colMax (q : ℕ) : ℕ := (List.range q).max?.getD 0

/-- `group_ret_by_day.columns.min()` where the columns are `0..q-1`. -/
def colMin (q : ℕ) : ℕ := (List.range q).min?.getD 0

/-- The long-short value of one date (builtins.py line 395):
`group_ret_by_day[max_grp] - group_ret_by_day[min_grp]` on that date. -/
def lsOfRow (q : ℕ) (row : GroupRow) : Option ℚ :=
  optSub (row.getD (colMax q) none) (row.getD (colMin q) none)

/-- Long-short value of one date as worded by the spec: mean return of the
highest-index populated bin minus the lowest-index populated bin, with
unpopulated bins skipped.  This definition follows the spec's words and is
compared against `lsOfRow`, which is translated from the source. -/
def specLsOfRow (row : GroupRow) : Option ℚ :=
  let populated := row.filterMap id
  match populated.head?, populated.getLast? with
  | some lo, some hi => some (hi - lo)
  | _, _ => none

/-! ## Column-reindex step of CommonFactorEvaluator.evaluate
(evaluation/builtins.py lines 368-387) -/

/-- The stacked grouped-return table: its column labels and, per date, the
cells present (bin label, mean return).  Mirrors the pandas DataFrame
`group_ret_by_day` before/after the reindex step. -/
structure GroupTable where
  cols : List ℕ
  rows : List (ℕ × List (ℕ × ℚ))

/-- pandas `DataFrame.empty`: true when either axis has length zero. -/
def GroupTable.isEmpty (t : GroupTable) : Bool :=
  t.rows.isEmpty || t.cols.isEmpty

/-- The reindex step (builtins.py lines 377-380): only when the table is
nonempty, its columns are replaced by the full range `0..q-1` (cells are
looked up by label, so absent labels read as missing).  An empty table is
left untouched. -/
def reindexGroupCols (q : ℕ) (t : GroupTable) : GroupTable :=
  if t.isEmpty then t else ⟨List.range q, t.rows⟩

/-- The empty stacked table produced when no date formed any bin. -/
def emptyGroupTable : GroupTable := ⟨[], []⟩

/-! ## Python-exception model for the library/engine claims -/

/-- The Python exception classes that the claims mention. -/
inductive PyErr where
  | typeError : PyErr
  | attributeError : PyErr
  | valueError : PyErr
deriving DecidableEq, Repr

/-- A catalog entry as saved by `FactorLibrary` (factor_library/service.py):
only the fields the claims touch are modelled. -/
structure FactorEntry where
  specName : String
  source_type : String
  last_eval_metrics : Metrics

/-- Python call model for the bound method `AdmissionRule.is_pass`: its
signature requires the two positional arguments `(metrics, horizon)`.  A
call that supplies no `horizon` raises `TypeError` before the body runs. -/
def callIsPass (r : AdmissionRule) (metrics : Metrics) (horizon : Option ℤ) :
    Except PyErr Bool :=
  match horizon with
  | none => Except.error PyErr.typeError
  | some h => Except.ok (r.is_pass metrics h)

/-- `FactorLibrary.auto_admit_from_eval` (service.py lines 59-86), with the
auto store threaded explicitly.  The source calls
`self.admission_rule.is_pass(metrics)` with no horizon argument, which is
the `none` in the `callIsPass` step.  Returns the call outcome and the
resulting auto store. -/
def auto_admit_from_eval (rule : Option AdmissionRule) (auto_store : List FactorEntry)
    (specName : String) (eval_metrics : Metrics) :
    Except PyErr Bool × List FactorEntry :=
  match rule with
  | none => (Except.ok false, auto_store)
  | some r =>
    match callIsPass r eval_metrics none with
    | Except.error e => (Except.error e, auto_store)
    | Except.ok false => (Except.ok false, auto_store)
    | Except.ok true =>
      (Except.ok true, auto_store ++ [⟨specName, "auto", eval_metrics⟩])

/-- The horizon loop of `AutoFactorProcessor.try_auto_admission`
(auto_batch.py lines 265-302): walk the reports in ascending-horizon order;
on the first horizon whose metrics pass `is_pass(metrics, horizon)`, call
`auto_admit_from_eval` with that horizon's result and return; if none pass,
return `False` with the store unchanged. -/
def admitLoop (rule : AdmissionRule) (auto_store : List FactorEntry) (specName : String) :
    List (ℤ × Metrics) → Except PyErr Bool × List FactorEntry
  | [] => (Except.ok false, auto_store)
  | (h, m) :: rest =>
    if rule.is_pass m h then auto_admit_from_eval (some rule) auto_store specName m
    else admitLoop rule auto_store specName rest

/-- `AutoFactorProcessor.try_auto_admit` (auto_batch.py lines 243-302), here
named `try_auto_admission`:
empty reports are rejected immediately; otherwise the reports are visited
in ascending order of horizon (`sorted(reports.keys())`; Python's sorted
is stable, modelled by a stable insertion sort on the key). -/
def try_auto_admission (rule : AdmissionRule) (auto_store : List FactorEntry)
    (specName : String) (reports : List (ℤ × Metrics)) :
    Except PyErr Bool × List FactorEntry :=
  if reports.isEmpty then (Except.ok false, auto_store)
  else admitLoop rule auto_store specName
    (List.insertionSort (fun a b : ℤ × Metrics => a.1 ≤ b.1) reports)

/-- The public methods defined on `EvaluatorEngine` (evaluation/engine.py
lines 15-137). -/
def evaluatorEngineMethods : List String :=
  ["align", "evaluate_one", "evaluate_all", "evaluate_factors", "list_evaluators"]

/-- Python attribute lookup on an `EvaluatorEngine` instance: resolving a
name that is not a method of the class raises `AttributeError`. -/
def engineGetattr (methodName : String) : Except PyErr Unit :=
  if evaluatorEngineMethods.contains methodName then Except.ok ()
  else Except.error PyErr.attributeError

/-- `load_entry(name)` against a store, then the manual-before-auto
fallback of `FactorLibrary.compute_factor` (service.py lines 89-116): a
name found in neither store raises `ValueError`; otherwise the factor
engine computes the factor (modelled by the oracle `computeOne`, since
factor functions are arbitrary Python). -/
def compute_factor (manual_store auto_store : List FactorEntry) (name : String)
    (computeOne : FactorEntry → Except PyErr ℚ) : Except PyErr ℚ :=
  match (manual_store.find? (fun e => e.specName = name)).orElse
      (fun _ => auto_store.find? (fun e => e.specName = name)) with
  | none => Except.error PyErr.valueError
  | some entry => computeOne entry

/-- `FactorLibrary.get_factor_report` (service.py lines 262-284): computes
the factor, then calls `self.evaluator_engine.evaluate_multi_horizons`.
The value of that call, were the attribute to resolve, is the parameter
`hypothetical`; the attribute lookup itself is the `engineGetattr` step. -/
def get_factor_report (manual_store auto_store : List FactorEntry) (name : String)
    (computeOne : FactorEntry → Except PyErr ℚ)
    (hypothetical : List (ℤ × Metrics)) : Except PyErr (List (ℤ × Metrics)) := do
  let _factor ← compute_factor manual_store auto_store name computeOne
  let _method ← engineGetattr "evaluate_multi_horizons"
  pure hypothetical

/-- `AutoFactorProcessor.evaluate_factor` (auto_batch.py lines 202-241):
inside a try/except it computes the factor (outcome `computeOutcome`) and
calls `self.evaluator_engine.evaluate_multi_horizons`; any exception is
caught and the empty dict is returned.  `hypothetical` again stands for the
value of the call had the attribute resolved. -/
def evaluate_factor (computeOutcome : Except PyErr ℚ)
    (hypothetical : List (ℤ × Metrics)) : List (ℤ × Metrics) :=
  match (do
      let _factor ← computeOutcome
      let _method ← engineGetattr "evaluate_multi_horizons"
      pure hypothetical : Except PyErr (List (ℤ × Metrics))) with
  | Except.error _ => []
  | Except.ok r => r

/-! ## CommonFactorEvaluator.evaluate: alignment, cleaning and packaging
(evaluation/builtins.py lines 294-322 and 482-499)

A pandas series over the (date, asset) panel index is an ordered
association list with maybe-NaN values.  The statistical middle of
`evaluate` (steps 1-4 of the spec) is passed in as the continuation
`rest`, which receives the cleaned factor/return pair and produces the
metrics and artifact names; the claims settled against this embedding
(C7, C10) only concern the head and the packaging, and hold for every
continuation. -/

/-- A pandas Series on the (date, asset) panel index; `none` is NaN. -/
abbrev PSeries : Type := List ((ℕ × ℕ) × Option ℚ)

/-- The index of a series. -/
def seriesKeys (s : PSeries) : List (ℕ × ℕ) := s.map Prod.fst

/-- Value of a series at a key (missing key reads as NaN). -/
def seriesLookup (s : PSeries) (k : ℕ × ℕ) : Option ℚ :=
  ((s.find? (fun kv => kv.1 = k)).map Prod.snd).getD none

/-- `factor.index.intersection(ret.index)` in left-index order. -/
def indexIntersection (a b : PSeries) : List (ℕ × ℕ) :=
  (seriesKeys a).filter (fun k => (seriesKeys b).contains k)

/-- `s.loc[idx]`: the series restricted to the given keys, in their order. -/
def restrict (s : PSeries) (idx : List (ℕ × ℕ)) : PSeries :=
  idx.map (fun k => (k, seriesLookup s k))

/-- Horizon amortization (builtins.py lines 313-314): only when
`horizon > 1`, every return value is divided by the horizon. -/
def scaleRet (horizon : ℤ) (ret : PSeries) : PSeries :=
  if 1 < horizon then
    ret.map (fun kv => (kv.1, kv.2.map (fun v => v / (horizon : ℚ))))
  else ret

/-- `CommonFactorEvalResult` (builtins.py lines 16-23 and
interfaces.py lines 13-35): artifacts are known here by name only, since
no settled claim constrains an artifact value at this level. -/
structure EvalResultL where
  evaluator_name : String
  factor_name : String
  metrics : List (String × Option ℚ)
  artifactNames : List String
  notes : List (String × String)
  horizon : ℤ

/-- `CommonFactorEvaluator._empty_result` (builtins.py lines 492-499):
empty metrics and artifacts, a single warning note, and the dataclass
default horizon 1. -/
def empty_result (factorName : Option String) (msg : String) : EvalResultL :=
  ⟨"common_eval", factorName.getD "factor", [], [], [("warning", msg)], 1⟩

namespace CommonFactorEvaluator

/-- `CommonFactorEvaluator.evaluate` (builtins.py lines 294-322, 482-490):
intersect the indices, short-circuit to `_empty_result` when the
intersection is empty; amortize the returns over the horizon; drop rows
where either value is missing, short-circuiting again when nothing is
left; otherwise run the statistical middle (`rest`) and package its
metrics/artifacts with empty notes and the given horizon. -/
def evaluate (factor ret : PSeries) (factorName : Option String) (horizon : ℤ)
    (rest : PSeries → PSeries → List (String × Option ℚ) × List String) :
    EvalResultL :=
  let common_idx := indexIntersection factor ret
  if common_idx.isEmpty then empty_result factorName "empty intersection"
  else
    let factor1 := restrict factor common_idx
    let ret1 := scaleRet horizon (restrict ret common_idx)
    let validIdx := common_idx.filter (fun k =>
      (seriesLookup factor1 k).isSome && (seriesLookup ret1 k).isSome)
    let factor2 := restrict factor1 validIdx
    let ret2 := restrict ret1 validIdx
    if factor2.isEmpty then empty_result factorName "empty after dropna"
    else
      let p := rest factor2 ret2
      ⟨"common_eval", factorName.getD "factor", p.1, p.2, [], horizon⟩

end CommonFactorEvaluator

/-! ## EvaluatorEngine (evaluation/engine.py)

Only the single built-in evaluator "common_eval" is registered
(builtins.py line 503), so the evaluator loop of `evaluate_all` reduces to
one call.  Parameter dicts are association lists updated with Python
`dict.update` semantics. -/

/-- A Python parameter value as used in the evaluator parameter dicts. -/
inductive ParamVal where
  | natV (n : ℕ)
  | ratV (q : ℚ)
  | boolV (b : Bool)
  | intV (z : ℤ)
deriving DecidableEq

/-- A Python keyword-parameter dict. -/
abbrev Params : Type := List (String × ParamVal)

/-- `d.get(k)` on a parameter dict. -/
def getParam (p : Params) (k : String) : Option ParamVal :=
  (p.find? (fun kv => kv.1 = k)).map Prod.snd

/-- `d[k] = v`: replace in place when the key exists, else append. -/
def setParam (base : Params) (k : String) (v : ParamVal) : Params :=
  if (base.find? (fun kv => kv.1 = k)).isSome then
    base.map (fun kv => if kv.1 = k then (k, v) else kv)
  else base ++ [(k, v)]

/-- Python `dict.update`. -/
def dictUpdate (base upd : Params) : Params :=
  upd.foldl (fun acc kv => setParam acc kv.1 kv.2) base

/-- `CommonFactorEvaluator.default_params` for the registered instance
`CommonFactorEvaluator(q=10, top_pct=0.2, long_high=True)`
(builtins.py lines 290-292 and 503): note there is no "horizon" entry. -/
def common_eval_default_params : Params :=
  [("q", ParamVal.natV 10), ("top_pct", ParamVal.ratV (1/5)),
   ("long_high", ParamVal.boolV true)]

/-- Binding of the `horizon` keyword at the `evaluate(...)` call site
against the signature default `horizon=1` (builtins.py line 301); a
horizon override, if present in the dict, is modelled as an `intV`. -/
def boundHorizon (params : Params) : ℤ :=
  match getParam params "horizon" with
  | some (ParamVal.intV h) => h
  | _ => 1

/-- `EvaluatorEngine.align` (engine.py lines 16-19): outer-join the two
series and drop rows with any missing value — i.e. keep exactly the keys
present in both series with both values non-missing.  Row order is
modelled in first-series order; none of the settled claims depends on the
order. -/
def align (factor ret : PSeries) : PSeries × PSeries :=
  let keys := (seriesKeys factor).filter (fun k =>
    (seriesKeys ret).contains k && (seriesLookup factor k).isSome &&
      (seriesLookup ret k).isSome)
  (restrict factor keys, restrict ret keys)

/-- `EvaluatorEngine.evaluate_all` (engine.py lines 49-87) for the single
registered evaluator: align, build the parameter dict as
defaults ← per-evaluator overrides ← call-site overrides, then call
`CommonFactorEvaluator.evaluate` with the horizon bound from that dict.
(The engine's factor-name autofill never fires for common_eval, whose
results always carry a name.) -/
def evaluate_all (factor ret : PSeries) (factorName : Option String)
    (per_evaluator_params : List (String × Params)) (override_params : Params)
    (rest : PSeries → PSeries → List (String × Option ℚ) × List String) :
    EvalResultL :=
  let aligned := align factor ret
  let params0 := common_eval_default_params
  let params1 :=
    match (per_evaluator_params.find? (fun kv => kv.1 = "common_eval")).map Prod.snd with
    | some p => dictUpdate params0 p
    | none => params0
  let params := dictUpdate params1 override_params
  CommonFactorEvaluator.evaluate aligned.1 aligned.2 factorName
    (boundHorizon params) rest

/-- `EvaluatorEngine.evaluate_factors` (engine.py lines 89-132), for one
factor column: builds the forward-return column per horizon (the builder
is the oracle `retFor`; its construction is outside the settled claims)
and calls `evaluate_all` for each requested horizon h — passing only the
evaluator list and `per_evaluator_params`, with no call-site overrides. -/
def evaluate_factors (horizons : List ℤ) (retFor : ℤ → PSeries) (factor : PSeries)
    (factorName : Option String) (per_evaluator_params : List (String × Params))
    (rest : PSeries → PSeries → List (String × Option ℚ) × List String) :
    List (ℤ × EvalResultL) :=
  horizons.map (fun h =>
    (h, evaluate_all factor (retFor h) factorName per_evaluator_params [] rest))

/-! ## Summary statistics: calc_stats (evaluation/builtins.py lines 340-349) -/

/-- pandas `Series.mean()` on a NaN-free series: the arithmetic mean. -/
noncomputable def listMean (l : List ℝ) : ℝ := l.sum / l.length

/-- pandas `Series.std(ddof=1)` on a NaN-free series with at least two
entries: the sample standard deviation with denominator n-1. -/
noncomputable def sampleStd (l : List ℝ) : ℝ :=
  Real.sqrt ((l.map (fun x => (x - listMean l) ^ 2)).sum / (l.length - 1))

/-- `calc_stats` (builtins.py lines 340-349): on a series (all call sites
pass NaN-free series, so the length is the non-missing count) return
(mean, std, ir, t), each `none` where the code leaves NaN. -/
noncomputable def calc_stats (series : List ℝ) :
    Option ℝ × Option ℝ × Option ℝ × Option ℝ :=
  if series.length < 2 then (none, none, none, none)
  else
    let mean := listMean series
    let std := sampleStd series
    if std ≤ 1e-8 then (some mean, some std, none, none)
    else
      (some mean, some std, some (mean / std),
        some (mean / (std / Real.sqrt series.length)))

/-! ## Per-date rank correlation: the accelerated kernel and the Common
Evaluator (numba_accelerator.py lines 11-75; builtins.py lines 329-338)

Both are embedded for a single date, after the date's rows have been
extracted and NaN rows removed (the kernel's in-loop mask/NaN filtering).
Float values are exact rationals; the correlation values live in ℝ.
`np.std(v) == 0` is modelled as "population variance = 0", which holds for
exactly the same inputs. -/

/-- The index comparison used to model a stable `np.argsort`: sort
positions by value, breaking ties by original position. -/
def argsortRel {α : Type} [LinearOrder α] (v : ℕ → α) (i j : ℕ) : Prop :=
  v i < v j ∨ (v i = v j ∧ i ≤ j)

instance argsortRelDecidable {α : Type} [LinearOrder α] (v : ℕ → α) :
    DecidableRel (argsortRel v) := fun i j =>
  inferInstanceAs (Decidable (v i < v j ∨ (v i = v j ∧ i ≤ j)))

/-- The strict part of `argsortRel`: position `i` comes strictly before
position `j` in the stable sort order. -/
def sLtRel {α : Type} [LinearOrder α] (v : ℕ → α) (i j : ℕ) : Prop :=
  v i < v j ∨ (v i = v j ∧ i < j)

instance sLtRelDecidable {α : Type} [LinearOrder α] (v : ℕ → α) :
    DecidableRel (sLtRel v) := fun i j =>
  inferInstanceAs (Decidable (v i < v j ∨ (v i = v j ∧ i < j)))

/-- `np.argsort`: the list of positions `0..n-1` sorted by value (stable;
numpy's tie order is unspecified but agrees with the stable order on the
concrete inputs used below, and the results proved for tie-free inputs do
not depend on the tie order). -/
def argsort {α : Type} [LinearOrder α] (d : α) (xs : List α) : List ℕ :=
  List.insertionSort (argsortRel (fun i => xs.getD i d)) (List.range xs.length)

/-- `np.argsort(np.argsort(values))`: the ordinal rank array
(numba_accelerator.py lines 59-60). -/
def rankList (xs : List ℚ) : List ℕ := argsort 0 (argsort (0 : ℚ) xs)

/-- Population variance (square of `np.std`). -/
def popVarQ (xs : List ℚ) : ℚ :=
  (xs.map (fun x => (x - xs.sum / xs.length) ^ 2)).sum / xs.length

/-- Deviations from the mean. -/
noncomputable def devList (l : List ℝ) : List ℝ := l.map (fun x => x - listMean l)

/-- `np.sum(a * b)` elementwise. -/
noncomputable def dotSum (a b : List ℝ) : ℝ := (List.zipWith (fun x y => x * y) a b).sum

/-- `np.sum(l ** 2)`. -/
noncomputable def sqSum (l : List ℝ) : ℝ := (l.map (fun x => x ^ 2)).sum

/-- The single-date body of `compute_rank_ic_by_date`
(numba_accelerator.py lines 37-73), on the date's NaN-free value pair:
guard on sample size and on zero variance of either array (those dates
keep NaN, here `none`); rank both arrays by double argsort; return the
Pearson correlation of the rank arrays when its denominator is positive. -/
noncomputable def kernelRankIC (xs ys : List ℚ) : Option ℝ :=
  if xs.length < 2 then none
  else if popVarQ xs = 0 ∨ popVarQ ys = 0 then none
  else
    let factor_rank : List ℝ := (rankList xs).map (fun r : ℕ => (r : ℝ))
    let return_rank : List ℝ := (rankList ys).map (fun r : ℕ => (r : ℝ))
    let numerator := dotSum (devList factor_rank) (devList return_rank)
    let denominator :=
      Real.sqrt (sqSum (devList factor_rank) * sqSum (devList return_rank))
    if 0 < denominator then some (numerator / denominator) else none

/-- Fractional (average) ranks, as used by `scipy.stats.spearmanr` and
hence by pandas `corr(method="spearman")`: one plus the count of strictly
smaller values, plus half of (the count of equal values minus one). -/
def avgRankQ (xs : List ℚ) : List ℚ :=
  xs.map (fun x =>
    (xs.countP (fun y => decide (y < x)) : ℚ) +
      ((xs.countP (fun y => decide (y = x)) : ℚ) + 1) / 2)

/-- Pearson correlation coefficient of two equal-length lists. -/
noncomputable def pearsonR (a b : List ℝ) : ℝ :=
  dotSum (devList a) (devList b) /
    (Real.sqrt (sqSum (devList a)) * Real.sqrt (sqSum (devList b)))

/-- pandas `Series.corr(other, method="spearman")` on NaN-free data:
Pearson correlation of the fractional rank vectors. -/
noncomputable def spearmanRho (xs ys : List ℚ) : ℝ :=
  pearsonR ((avgRankQ xs).map (fun v : ℚ => (v : ℝ)))
    ((avgRankQ ys).map (fun v : ℚ => (v : ℝ)))

/-- The rank-IC branch of `calc_ics` (builtins.py lines 329-334) for one
date: NaN when the date has fewer than 2 rows or zero variance on either
side, else the Spearman rank correlation. -/
noncomputable def calc_ics_rank_ic (xs ys : List ℚ) : Option ℝ :=
  if xs.length < 2 ∨ popVarQ xs = 0 ∨ popVarQ ys = 0 then none
  else some (spearmanRho xs ys)

/-! ## Theorems -/

/-! ### C1: the admission predicate -/

/-- C1 (amended): `AdmissionRule.is_pass(metrics, horizon)` returns true iff
the four threshold clauses hold with missing keys read as 0.0 for the two
rank-IC terms and monotonicity and as 1.0 for the turnover term; a missing
rank-IC, IR or monotonicity key fails its clause whenever its threshold is
positive.  (The turnover default 1.0 is the most conservative value but
does not in general fail the turnover clause: see the counterexample.) -/
theorem admission_is_pass_spec (r : AdmissionRule) (m : Metrics) (h : ℤ)
    (hh : 1 ≤ h) :
    (r.is_pass m h = true ↔
      (r.min_rank_ic ≤ |m.rank_ic_mean.getD 0| ∧
        r.min_rank_ic_ir ≤ |m.rank_ic_ir.getD 0| ∧
        m.top_turnover_20_mean.getD 1 / (h : ℚ) ≤ r.max_top_turnover_20_mean ∧
        r.min_monotonic_mean ≤ |m.monotonic_mean.getD 0|)) ∧
    (m.rank_ic_mean = none → 0 < r.min_rank_ic → r.is_pass m h = false) ∧
    (m.rank_ic_ir = none → 0 < r.min_rank_ic_ir → r.is_pass m h = false) ∧
    (m.monotonic_mean = none → 0 < r.min_monotonic_mean → r.is_pass m h = false) := by
  refine ⟨?_, ?_, ?_, ?_⟩
  · simp [AdmissionRule.is_pass, and_assoc]
  · intro h0 hpos
    simp [AdmissionRule.is_pass, h0, abs_zero, not_le.mpr hpos]
  · intro h0 hpos
    simp [AdmissionRule.is_pass, h0, abs_zero, not_le.mpr hpos]
  · intro h0 hpos
    simp [AdmissionRule.is_pass, h0, abs_zero, not_le.mpr hpos]

/-- Witness for C1: the default rule at horizon 1 rejects an entirely empty
metrics mapping. -/
theorem admission_is_pass_spec_witness :
    (1 : ℤ) ≤ 1 ∧
      defaultAdmissionRule.is_pass ⟨none, none, none, none⟩ 1 = false :=
  ⟨le_refl 1,
    (admission_is_pass_spec defaultAdmissionRule ⟨none, none, none, none⟩ 1
        (le_refl 1)).2.1 rfl (by norm_num [defaultAdmissionRule])⟩

/-- Counterexample for C1 as stated: with the dataclass default thresholds, a
metrics mapping that is missing the turnover key passes at horizon 2 — the
missing key is read as 1.0, and 1.0 / 2 ≤ 0.6 satisfies (does not fail) the
turnover clause, so a missing key is not always read as a value that fails
its clause. -/
theorem admission_missing_turnover_key_passes :
    (⟨some (1/2), some (1/2), none, some (1/2)⟩ : Metrics).top_turnover_20_mean
        = none ∧
      defaultAdmissionRule.is_pass ⟨some (1/2), some (1/2), none, some (1/2)⟩ 2
        = true := by
  refine ⟨rfl, ?_⟩
  norm_num [AdmissionRule.is_pass, defaultAdmissionRule, abs_of_nonneg]

/-! ### C8: auto_admit_from_eval raises TypeError -/

/-- C8: for every configured admission rule, store, spec and metrics,
`FactorLibrary.auto_admit_from_eval` calls `is_pass` without the required
horizon argument and raises `TypeError`; no entry is saved and the auto
store is unchanged. -/
theorem auto_admit_from_eval_type_error (r : AdmissionRule)
    (store : List FactorEntry) (name : String) (m : Metrics) :
    auto_admit_from_eval (some r) store name m =
      (Except.error PyErr.typeError, store) := rfl

/-! ### C4: the multi-horizon admission protocol -/

/-- C4: evaluating `try_auto_admission` at the failing input — reports for
horizons 10 and 20 whose metrics pass the default thresholds at both
horizons.  The loop selects horizon 10 first, as the claim says, but the
admission call `auto_admit_from_eval` raises `TypeError` (its `is_pass`
call omits the horizon argument), so no factor is admitted and the store
stays empty, against the claimed admission of horizon 10's result. -/
theorem try_auto_admission_raises_on_first_pass :
    try_auto_admission defaultAdmissionRule [] "momentum"
        [(10, ⟨some (1/2), some (1/2), some (1/100), some (1/2)⟩),
          (20, ⟨some (1/2), some (1/2), some (1/100), some (1/2)⟩)] =
      (Except.error PyErr.typeError, []) := by
  have hpass : defaultAdmissionRule.is_pass
      ⟨some (1/2), some (1/2), some (1/100), some (1/2)⟩ 10 = true := by
    norm_num [AdmissionRule.is_pass, defaultAdmissionRule, abs_of_nonneg]
  simp only [try_auto_admission, List.insertionSort, List.orderedInsert]
  norm_num [admitLoop, hpass, auto_admit_from_eval, callIsPass]

/-! ### C5: the long-short step -/

theorem colMax_eq (q : ℕ) (hq : 1 ≤ q) : colMax q = q - 1 := by
  have h : (List.range q).max? = some (q - 1) := by
    refine (List.max?_eq_some_iff (fun a => le_refl a) (fun a b => max_choice a b)
      (fun a b c => Nat.max_le)).mpr ⟨?_, ?_⟩
    · exact List.mem_range.mpr (by omega)
    · intro b hb
      have := List.mem_range.mp hb
      omega
  simp [colMax, h]

theorem colMin_eq (q : ℕ) (hq : 1 ≤ q) : colMin q = 0 := by
  have h : (List.range q).min? = some 0 := by
    refine (List.min?_eq_some_iff (fun a => le_refl a) (fun a b => min_choice a b)
      (fun a b c => Nat.le_min)).mpr ⟨?_, ?_⟩
    · exact List.mem_range.mpr (by omega)
    · intro b hb
      exact Nat.zero_le b
  simp [colMin, h]

theorem filterMap_id_head (row : GroupRow) (x : ℚ)
    (h : row.getD 0 none = some x) : (row.filterMap id).head? = some x := by
  cases row with
  | nil => simp at h
  | cons a t =>
    simp only [List.getD_cons_zero] at h
    subst h
    simp

theorem filterMap_id_getLast (row : GroupRow) (x : ℚ)
    (h : row.getD (row.length - 1) none = some x) :
    (row.filterMap id).getLast? = some x := by
  rw [List.getLast?_eq_head?_reverse, ← List.filterMap_reverse]
  apply filterMap_id_head
  rw [List.getD_eq_getElem?_getD] at h ⊢
  rw [← List.head?_eq_getElem?, ← List.getLast?_eq_head?_reverse,
    List.getLast?_eq_getElem?]
  exact h

/-- C5 (amended): on a reindexed grouped row with bins 0..q-1, the per-date
long-short return is the cell of bin q-1 minus the cell of bin 0, and it is
missing whenever either of those two extreme bins is unpopulated on that
date (an unpopulated extreme bin is a missing operand, not skipped).  When
both extreme bins are populated this coincides with the claimed
highest/lowest-populated-bin rule. -/
theorem lsOfRow_eq_extremes (q : ℕ) (row : GroupRow) (hq : 1 ≤ q)
    (hlen : row.length = q) :
    lsOfRow q row = optSub (row.getD (q - 1) none) (row.getD 0 none) ∧
    ((row.getD (q - 1) none).isSome → (row.getD 0 none).isSome →
      lsOfRow q row = specLsOfRow row) := by
  have hmain : lsOfRow q row = optSub (row.getD (q - 1) none) (row.getD 0 none) := by
    rw [lsOfRow, colMax_eq q hq, colMin_eq q hq]
  refine ⟨hmain, ?_⟩
  intro hhi hlo
  obtain ⟨hi, hhi⟩ := Option.isSome_iff_exists.mp hhi
  obtain ⟨lo, hlo⟩ := Option.isSome_iff_exists.mp hlo
  have hhead := filterMap_id_head row lo hlo
  have hlast := filterMap_id_getLast row hi (by rw [hlen]; exact hhi)
  rw [hmain, hhi, hlo, specLsOfRow, hhead, hlast]
  rfl

/-- Witness for C5: a fully populated two-bin row. -/
theorem lsOfRow_eq_extremes_witness :
    (1 ≤ 2 ∧ ([some 1, some (2 : ℚ)] : GroupRow).length = 2) ∧
      lsOfRow 2 [some 1, some 2] = optSub (some 2) (some 1) ∧
      lsOfRow 2 [some 1, some 2] = specLsOfRow [some 1, some 2] := by
  have h := lsOfRow_eq_extremes 2 [some 1, some (2 : ℚ)] (by norm_num) rfl
  exact ⟨⟨by norm_num, rfl⟩, h.1, h.2 rfl rfl⟩

/-- Counterexample for C5 as stated: a date whose only populated bin is bin
0 (reachable, e.g. factor values [1, 1, 2] with q = 2, where the duplicate
quantile edge is dropped and every row lands in bin 0).  The code's
long-short value is missing (bin 1 is a missing operand), while the claimed
highest/lowest-populated rule yields 0. -/
theorem lsOfRow_ne_spec :
    lsOfRow 2 [some 1, none] = none ∧
      specLsOfRow [some 1, none] = some 0 ∧
      lsOfRow 2 [some 1, none] ≠ specLsOfRow [some 1, none] := by
  have h2 : specLsOfRow [some 1, none] = some 0 := by
    simp [specLsOfRow]
  refine ⟨rfl, h2, ?_⟩
  rw [h2]
  exact fun h => Option.noConfusion h

/-! ### C6: the column-reindex step -/

/-- C6 (amended): whenever the stacked grouped table is nonempty (at least
one date formed at least one bin), the reindex step gives it exactly the
columns 0..q-1; an empty stacked table is left with no columns at all. -/
theorem reindexGroupCols_cols (q : ℕ) (t : GroupTable)
    (h : t.isEmpty = false) : (reindexGroupCols q t).cols = List.range q := by
  simp [reindexGroupCols, h]

/-- Witness for C6: a one-date, one-bin table reindexed to q = 10. -/
theorem reindexGroupCols_cols_witness :
    (GroupTable.isEmpty ⟨[0], [(0, [(0, (1 : ℚ))])]⟩ = false) ∧
      (reindexGroupCols 10 ⟨[0], [(0, [(0, (1 : ℚ))])]⟩).cols = List.range 10 :=
  ⟨rfl, reindexGroupCols_cols 10 ⟨[0], [(0, [(0, (1 : ℚ))])]⟩ rfl⟩

/-- Counterexample for C6 as stated: when no date has enough observations
to form any bin the stacked table is empty, the reindex step is skipped
(builtins.py line 377 guards on nonemptiness), and the artifact table has
no columns rather than q columns. -/
theorem reindexGroupCols_empty_table :
    (reindexGroupCols 10 emptyGroupTable).cols = [] ∧
      ([] : List ℕ) ≠ List.range 10 := by
  refine ⟨rfl, ?_⟩
  decide

/-! ### C9: the missing evaluate_multi_horizons method -/

/-- C9 (amended): `evaluate_multi_horizons` is not among the methods of
`EvaluatorEngine`; `FactorLibrary.get_factor_report` raises
`AttributeError` on every input whose factor computation succeeds (when the
library lookup fails, `compute_factor` raises `ValueError` before the
engine attribute is touched); and `AutoFactorProcessor.evaluate_factor`,
which catches every exception, returns the empty report mapping for every
factor. -/
theorem get_factor_report_attribute_error :
    (evaluatorEngineMethods.contains "evaluate_multi_horizons" = false) ∧
    (∀ (manual auto : List FactorEntry) (name : String)
        (computeOne : FactorEntry → Except PyErr ℚ)
        (hyp : List (ℤ × Metrics)) (v : ℚ),
      compute_factor manual auto name computeOne = Except.ok v →
        get_factor_report manual auto name computeOne hyp =
          Except.error PyErr.attributeError) ∧
    (∀ (outcome : Except PyErr ℚ) (hyp : List (ℤ × Metrics)),
      evaluate_factor outcome hyp = []) := by
  refine ⟨by decide, ?_, ?_⟩
  · intro manual auto name computeOne hyp v hok
    simp [get_factor_report, hok, engineGetattr, evaluatorEngineMethods]
    rfl
  · intro outcome hyp
    cases outcome <;> rfl

/-- Witness for C9: a library whose manual store holds the factor, with a
successful factor computation. -/
theorem get_factor_report_attribute_error_witness :
    (compute_factor [⟨"m", "manual", ⟨none, none, none, none⟩⟩] [] "m"
        (fun _ => Except.ok 0) = Except.ok 0) ∧
      get_factor_report [⟨"m", "manual", ⟨none, none, none, none⟩⟩] [] "m"
          (fun _ => Except.ok 0) [] =
        Except.error PyErr.attributeError :=
  ⟨rfl, get_factor_report_attribute_error.2.1
    [⟨"m", "manual", ⟨none, none, none, none⟩⟩] [] "m" (fun _ => Except.ok 0)
    [] 0 rfl⟩

/-- Counterexample for C9 as stated: with empty stores the factor lookup
fails and `get_factor_report` raises `ValueError`, not `AttributeError`, so
it does not raise `AttributeError` for every input. -/
theorem get_factor_report_value_error :
    get_factor_report [] [] "momentum" (fun _ => Except.ok 0) [] =
        Except.error PyErr.valueError ∧
      PyErr.valueError ≠ PyErr.attributeError := by
  refine ⟨rfl, ?_⟩
  decide

/-! ### C7: the empty-result policy of CommonFactorEvaluator.evaluate -/

/-- C7: for every input whose index intersection is empty, and for every
input that becomes empty after removing missing values,
`CommonFactorEvaluator.evaluate` returns (does not raise) a result with
empty metrics, empty artifacts and a warning note naming the degenerate
case — for every statistical middle `rest`. -/
theorem evaluate_empty_cases (factor ret : PSeries) (factorName : Option String)
    (horizon : ℤ)
    (rest : PSeries → PSeries → List (String × Option ℚ) × List String) :
    (indexIntersection factor ret = [] →
      CommonFactorEvaluator.evaluate factor ret factorName horizon rest =
          empty_result factorName "empty intersection" ∧
        (empty_result factorName "empty intersection").metrics = [] ∧
        (empty_result factorName "empty intersection").artifactNames = [] ∧
        (empty_result factorName "empty intersection").notes =
          [("warning", "empty intersection")]) ∧
    (indexIntersection factor ret ≠ [] →
      (indexIntersection factor ret).filter (fun k =>
          (seriesLookup (restrict factor (indexIntersection factor ret)) k).isSome &&
            (seriesLookup (scaleRet horizon
              (restrict ret (indexIntersection factor ret))) k).isSome) = [] →
      CommonFactorEvaluator.evaluate factor ret factorName horizon rest =
          empty_result factorName "empty after dropna" ∧
        (empty_result factorName "empty after dropna").metrics = [] ∧
        (empty_result factorName "empty after dropna").artifactNames = [] ∧
        (empty_result factorName "empty after dropna").notes =
          [("warning", "empty after dropna")]) := by
  constructor
  · intro h
    refine ⟨?_, rfl, rfl, rfl⟩
    simp [CommonFactorEvaluator.evaluate, h]
  · intro hne hvalid
    refine ⟨?_, rfl, rfl, rfl⟩
    have hfalse : (indexIntersection factor ret).isEmpty = false := by
      cases hidx : indexIntersection factor ret with
      | nil => exact absurd hidx hne
      | cons a t => rfl
    simp only [CommonFactorEvaluator.evaluate]
    rw [hfalse, hvalid]
    simp [restrict]

/-- Witness for C7: a disjoint-index pair short-circuits with
"empty intersection"; an all-NaN factor over a shared index short-circuits
with "empty after dropna". -/
theorem evaluate_empty_cases_witness :
    (indexIntersection [((0, 0), some (1 : ℚ))] [((1, 1), some 1)] = []) ∧
      CommonFactorEvaluator.evaluate [((0, 0), some 1)] [((1, 1), some 1)]
          none 1 (fun _ _ => ([], [])) = empty_result none "empty intersection" ∧
      (indexIntersection [((0, 0), (none : Option ℚ))] [((0, 0), some 1)] ≠ []) ∧
      CommonFactorEvaluator.evaluate [((0, 0), none)] [((0, 0), some 1)]
          none 1 (fun _ _ => ([], [])) = empty_result none "empty after dropna" := by
  have hne : indexIntersection [((0, 0), (none : Option ℚ))] [((0, 0), some 1)] ≠ [] := by
    intro h
    exact List.noConfusion h
  refine ⟨rfl, ?_, hne, ?_⟩
  · exact ((evaluate_empty_cases [((0, 0), some 1)] [((1, 1), some 1)] none 1
      (fun _ _ => ([], []))).1 rfl).1
  · exact ((evaluate_empty_cases [((0, 0), none)] [((0, 0), some 1)] none 1
      (fun _ _ => ([], []))).2 hne rfl).1

/-! ### C10: evaluate_factors never forwards the horizon -/

theorem getParam_setParam_ne (base : Params) (j : String) (v : ParamVal)
    (k : String) (hjk : j ≠ k) (hb : getParam base k = none) :
    getParam (setParam base j v) k = none := by
  have hfind : base.find? (fun kv => kv.1 = k) = none := by
    cases hf : base.find? (fun kv => kv.1 = k) with
    | none => rfl
    | some kv => simp [getParam, hf] at hb
  unfold setParam
  by_cases hex : (base.find? (fun kv => kv.1 = j)).isSome
  · rw [if_pos hex]
    unfold getParam
    rw [List.find?_map]
    have : (List.find? ((fun kv : String × ParamVal => decide (kv.1 = k)) ∘
        fun kv => if kv.1 = j then (j, v) else kv) base) = none := by
      rw [List.find?_eq_none] at hfind ⊢
      intro x hx
      have := hfind x hx
      by_cases hxj : x.1 = j <;> simp [Function.comp, hxj] at * <;> simp_all
    rw [this]
    rfl
  · rw [if_neg hex]
    unfold getParam
    rw [List.find?_append, hfind]
    simp [hjk]

theorem getParam_dictUpdate_none (upd base : Params) (k : String)
    (hb : getParam base k = none) (hu : getParam upd k = none) :
    getParam (dictUpdate base upd) k = none := by
  induction upd generalizing base with
  | nil => exact hb
  | cons kv rest ih =>
    have hkk : kv.1 ≠ k := by
      intro hk
      simp [getParam, List.find?_cons, hk] at hu
    have hrest : getParam rest k = none := by
      simpa [getParam, List.find?_cons, hkk] using hu
    have hbase : getParam (setParam base kv.1 kv.2) k = none :=
      getParam_setParam_ne base kv.1 kv.2 k hkk hb
    simpa [dictUpdate] using ih (setParam base kv.1 kv.2) hbase hrest

theorem getParam_defaults_horizon :
    getParam common_eval_default_params "horizon" = none := by
  simp [getParam, common_eval_default_params]

theorem scaleRet_one (r : PSeries) : scaleRet 1 r = r := by
  simp [scaleRet]

theorem evaluate_horizon_one (factor ret : PSeries) (factorName : Option String)
    (rest : PSeries → PSeries → List (String × Option ℚ) × List String) :
    (CommonFactorEvaluator.evaluate factor ret factorName 1 rest).horizon = 1 := by
  simp only [CommonFactorEvaluator.evaluate]
  split
  · rfl
  · split <;> rfl

/-- C10: `EvaluatorEngine.evaluate_factors` never forwards the requested
horizon.  Provided the per-evaluator overrides carry no "horizon" entry for
common_eval, every produced result is exactly an evaluation at the
signature default horizon 1: its horizon field is 1 (not the requested h),
and the horizon-amortization branch is not taken, so the forward-return
series is not divided by h. -/
theorem evaluate_factors_default_horizon
    (horizons : List ℤ) (retFor : ℤ → PSeries) (factor : PSeries)
    (factorName : Option String) (pe : List (String × Params))
    (rest : PSeries → PSeries → List (String × Option ℚ) × List String)
    (hno : ∀ p : Params,
      (pe.find? (fun kv => kv.1 = "common_eval")).map Prod.snd = some p →
      getParam p "horizon" = none) :
    ∀ hr ∈ evaluate_factors horizons retFor factor factorName pe rest,
      hr.2 = CommonFactorEvaluator.evaluate (align factor (retFor hr.1)).1
          (align factor (retFor hr.1)).2 factorName 1 rest ∧
        hr.2.horizon = 1 ∧
        scaleRet 1 (retFor hr.1) = retFor hr.1 := by
  intro hr hmem
  simp only [evaluate_factors, List.mem_map] at hmem
  obtain ⟨h, hh, rfl⟩ := hmem
  have hparams : boundHorizon (dictUpdate
      (match (pe.find? (fun kv => kv.1 = "common_eval")).map Prod.snd with
        | some p => dictUpdate common_eval_default_params p
        | none => common_eval_default_params) []) = 1 := by
    cases hfind : (pe.find? (fun kv => kv.1 = "common_eval")).map Prod.snd with
    | none =>
      simp only [dictUpdate, List.foldl_nil]
      rw [boundHorizon, getParam_defaults_horizon]
    | some p =>
      have hp := hno p hfind
      have : getParam (dictUpdate common_eval_default_params p) "horizon" = none :=
        getParam_dictUpdate_none p common_eval_default_params "horizon"
          getParam_defaults_horizon hp
      simp only [dictUpdate, List.foldl_nil]
      rw [boundHorizon]
      rw [dictUpdate] at this
      rw [this]
  have heval : evaluate_all factor (retFor h) factorName pe [] rest =
      CommonFactorEvaluator.evaluate (align factor (retFor h)).1
        (align factor (retFor h)).2 factorName 1 rest := by
    simp only [evaluate_all]
    rw [hparams]
  refine ⟨heval, ?_, scaleRet_one (retFor h)⟩
  rw [heval]
  exact evaluate_horizon_one (align factor (retFor h)).1 (align factor (retFor h)).2
    factorName rest

/-- Witness for C10: a single requested horizon 5 with empty data and no
per-evaluator overrides; the produced result carries horizon 1. -/
theorem evaluate_factors_default_horizon_witness :
    ((5 : ℤ), evaluate_all ([] : PSeries) [] none [] [] (fun _ _ => ([], []))) ∈
        evaluate_factors [(5 : ℤ)] (fun _ => []) [] none [] (fun _ _ => ([], [])) ∧
      (evaluate_all ([] : PSeries) [] none [] []
        (fun _ _ => ([], []))).horizon = 1 := by
  have hmem : ((5 : ℤ), evaluate_all ([] : PSeries) [] none [] []
      (fun _ _ => ([], []))) ∈
      evaluate_factors [(5 : ℤ)] (fun _ => []) [] none [] (fun _ _ => ([], [])) := by
    simp [evaluate_factors]
  refine ⟨hmem, ?_⟩
  exact (evaluate_factors_default_horizon [(5 : ℤ)] (fun _ => []) [] none []
    (fun _ _ => ([], [])) (fun p hp => by simp at hp) _ hmem).2.1

/-! ### C2: the summary statistics calc_stats -/

/-- C2: on every series handed to `calc_stats` (NaN-free at all call
sites, so length is the non-missing count): fewer than 2 values makes all
four outputs undefined; otherwise the mean is the arithmetic mean and the
std is the sample standard deviation with denominator n-1; when the std is
at most 1e-8 the information ratio and t-statistic are undefined, else
ir = mean/std and t = mean / (std / sqrt n). -/
theorem calc_stats_spec (xs : List ℝ) :
    (xs.length < 2 → calc_stats xs = (none, none, none, none)) ∧
    (2 ≤ xs.length →
      (calc_stats xs).1 = some (xs.sum / xs.length) ∧
      (calc_stats xs).2.1 = some (Real.sqrt
        ((xs.map (fun x => (x - xs.sum / xs.length) ^ 2)).sum /
          (xs.length - 1))) ∧
      (sampleStd xs ≤ 1e-8 →
        (calc_stats xs).2.2.1 = none ∧ (calc_stats xs).2.2.2 = none) ∧
      (1e-8 < sampleStd xs →
        (calc_stats xs).2.2.1 = some (xs.sum / xs.length / sampleStd xs) ∧
        (calc_stats xs).2.2.2 = some (xs.sum / xs.length /
          (sampleStd xs / Real.sqrt xs.length)))) := by
  constructor
  · intro h
    simp [calc_stats, h]
  · intro h
    have hnot : ¬ xs.length < 2 := by omega
    by_cases hstd : sampleStd xs ≤ 1e-8
    · have hred : calc_stats xs =
          (some (listMean xs), some (sampleStd xs), none, none) := by
        simp only [calc_stats]
        rw [if_neg hnot, if_pos hstd]
      refine ⟨?_, ?_, fun _ => ⟨?_, ?_⟩, fun hlt => absurd hstd (not_le.mpr hlt)⟩ <;>
        simp [hred, listMean, sampleStd]
    · have hred : calc_stats xs =
          (some (listMean xs), some (sampleStd xs),
            some (listMean xs / sampleStd xs),
            some (listMean xs / (sampleStd xs / Real.sqrt xs.length))) := by
        simp only [calc_stats]
        rw [if_neg hnot, if_neg hstd]
      refine ⟨?_, ?_, fun hle => absurd hle hstd, fun _ => ⟨?_, ?_⟩⟩ <;>
        simp [hred, listMean, sampleStd]

/-- Witness for C2: the two-element series [0, 0] has mean 0 and sample
std 0 ≤ 1e-8, so the information ratio and t-statistic are undefined. -/
theorem calc_stats_spec_witness :
    2 ≤ ([(0 : ℝ), 0]).length ∧
      calc_stats [(0 : ℝ), 0] = (some 0, some 0, none, none) := by
  have hlen : 2 ≤ ([(0 : ℝ), 0]).length := by norm_num
  have hstd : sampleStd [(0 : ℝ), 0] = 0 := by
    norm_num [sampleStd, listMean, Real.sqrt_zero]
  have h := (calc_stats_spec [(0 : ℝ), 0]).2 hlen
  have e1 : (calc_stats [(0 : ℝ), 0]).1 = some 0 := by
    rw [h.1]
    norm_num
  have e2 : (calc_stats [(0 : ℝ), 0]).2.1 = some 0 := by
    rw [h.2.1]
    norm_num [Real.sqrt_zero]
  have e34 := h.2.2.1 (by rw [hstd]; norm_num)
  exact ⟨hlen, Prod.ext e1 (Prod.ext e2 (Prod.ext e34.1 e34.2))⟩

/-! ### C3: the accelerated kernel vs the Common Evaluator rank correlation

The development below characterises the double-argsort ordinal ranks: on a
tie-free array the rank of position i is the number of strictly smaller
values, which is one less than the fractional rank used by Spearman; the
Pearson correlation is invariant under that shift, which gives the
amended equivalence.  With ties the two ranking schemes genuinely differ,
which is the counterexample. -/

theorem argsortRel_total {α : Type} [LinearOrder α] (v : ℕ → α) :
    ∀ i j, argsortRel v i j ∨ argsortRel v j i := by
  intro i j
  rcases lt_trichotomy (v i) (v j) with h | h | h
  · exact Or.inl (Or.inl h)
  · rcases le_total i j with hij | hij
    · exact Or.inl (Or.inr ⟨h, hij⟩)
    · exact Or.inr (Or.inr ⟨h.symm, hij⟩)
  · exact Or.inr (Or.inl h)

theorem argsortRel_trans {α : Type} [LinearOrder α] (v : ℕ → α) :
    ∀ i j k, argsortRel v i j → argsortRel v j k → argsortRel v i k := by
  intro i j k hij hjk
  rcases hij with h1 | ⟨h1, h1'⟩ <;> rcases hjk with h2 | ⟨h2, h2'⟩
  · exact Or.inl (h1.trans h2)
  · exact Or.inl (h2 ▸ h1)
  · exact Or.inl (h1 ▸ h2)
  · exact Or.inr ⟨h1.trans h2, h1'.trans h2'⟩

theorem argsort_perm {α : Type} [LinearOrder α] (d : α) (xs : List α) :
    (argsort d xs).Perm (List.range xs.length) :=
  List.perm_insertionSort _ _

theorem argsort_length {α : Type} [LinearOrder α] (d : α) (xs : List α) :
    (argsort d xs).length = xs.length := by
  rw [(argsort_perm d xs).length_eq, List.length_range]

theorem argsort_nodup {α : Type} [LinearOrder α] (d : α) (xs : List α) :
    (argsort d xs).Nodup :=
  (argsort_perm d xs).nodup_iff.mpr (List.nodup_range xs.length)

theorem argsort_sorted {α : Type} [LinearOrder α] (d : α) (xs : List α) :
    List.Sorted (argsortRel (fun i => xs.getD i d)) (argsort d xs) :=
  @List.sorted_insertionSort ℕ (argsortRel (fun i => xs.getD i d)) _
    ⟨argsortRel_total _⟩ ⟨argsortRel_trans _⟩ (List.range xs.length)

theorem sLtRel_of_argsortRel {α : Type} [LinearOrder α] (v : ℕ → α) {i j : ℕ}
    (h : argsortRel v i j) (hne : i ≠ j) : sLtRel v i j := by
  rcases h with h | ⟨h, h'⟩
  · exact Or.inl h
  · exact Or.inr ⟨h, lt_of_le_of_ne h' hne⟩

theorem sLtRel_asymm {α : Type} [LinearOrder α] (v : ℕ → α) {i j : ℕ}
    (h : sLtRel v i j) : ¬ sLtRel v j i := by
  intro h'
  rcases h with h | ⟨he, hij⟩
  · rcases h' with h' | ⟨he', _⟩
    · exact lt_asymm h h'
    · rw [he'] at h
      exact lt_irrefl _ h
  · rcases h' with h' | ⟨_, hji⟩
    · rw [he] at h'
      exact lt_irrefl _ h'
    · omega

/-- In a strictly sorted list of positions, the index of an element is the
number of elements strictly before it in the key order. -/
theorem indexOf_sorted_eq_countP {α : Type} [LinearOrder α] (v : ℕ → α) :
    ∀ l : List ℕ, l.Nodup → List.Sorted (argsortRel v) l →
      ∀ i ∈ l, List.indexOf i l = l.countP (fun j => decide (sLtRel v j i)) := by
  intro l
  induction l with
  | nil =>
    intro _ _ i hi
    exact absurd hi (List.not_mem_nil i)
  | cons a t ih =>
    intro hnd hsort i hi
    have hhead := (List.sorted_cons.mp hsort).1
    have htail := (List.sorted_cons.mp hsort).2
    have hna := (List.nodup_cons.mp hnd).1
    have hnt := (List.nodup_cons.mp hnd).2
    rw [List.countP_cons]
    rcases List.mem_cons.mp hi with rfl | hit
    · rw [List.indexOf_cons_self]
      have h1 : t.countP (fun j => decide (sLtRel v j i)) = 0 := by
        rw [List.countP_eq_zero]
        intro j hj
        simp only [decide_eq_true_eq]
        exact sLtRel_asymm v (sLtRel_of_argsortRel v (hhead j hj)
          (fun h => hna (h ▸ hj)))
      have h2 : ¬ sLtRel v i i := fun h => sLtRel_asymm v h h
      simp [h1, h2]
    · have hia : a ≠ i := fun h => hna (h ▸ hit)
      rw [List.indexOf_cons_ne t hia]
      have h2 : sLtRel v a i := sLtRel_of_argsortRel v (hhead i hit) hia
      rw [ih hnt htail i hit]
      simp [h2]

theorem list_eq_map_range {α : Type} (l : List α) (d : α) :
    (List.range l.length).map (fun i => l.getD i d) = l := by
  induction l with
  | nil => rfl
  | cons a t ih =>
    rw [List.length_cons, List.range_succ_eq_map, List.map_cons, List.map_map]
    have h : ((fun i => (a :: t).getD i d) ∘ Nat.succ) = fun i => t.getD i d := by
      funext i
      rfl
    rw [h, ih]
    rfl

theorem countP_getD_range {α : Type} (l : List α) (d : α) (p : α → Bool) :
    (List.range l.length).countP (fun i => p (l.getD i d)) = l.countP p := by
  conv_rhs => rw [← list_eq_map_range l d]
  rw [List.countP_map]
  rfl

theorem countP_range_lt (n t : ℕ) :
    (List.range n).countP (fun j => decide (j < t)) = min t n := by
  induction n with
  | zero => simp
  | succ n ih =>
    rw [List.range_succ, List.countP_append, ih]
    by_cases h : n < t <;> simp [h] <;> omega

theorem getD_mem {α : Type} (l : List α) (d : α) (i : ℕ) (hi : i < l.length) :
    l.getD i d ∈ l := by
  rw [List.getD_eq_getElem l d hi]
  exact List.getElem_mem hi

theorem nodup_getD_inj {α : Type} (l : List α) (d : α) (hnd : l.Nodup)
    {i j : ℕ} (hi : i < l.length) (hj : j < l.length)
    (h : l.getD i d = l.getD j d) : i = j := by
  rw [List.getD_eq_getElem l d hi, List.getD_eq_getElem l d hj] at h
  exact (hnd.getElem_inj_iff).mp h

theorem nodup_indexOf_getD {α : Type} [DecidableEq α] (l : List α) (d : α)
    (hnd : l.Nodup) (k : ℕ) (hk : k < l.length) :
    List.indexOf (l.getD k d) l = k := by
  have hmem : l.getD k d ∈ l := getD_mem l d k hk
  have hlt : List.indexOf (l.getD k d) l < l.length :=
    List.indexOf_lt_length.mpr hmem
  have hget := List.indexOf_get (a := l.getD k d) (l := l) hlt
  have : l[List.indexOf (l.getD k d) l] = l[k] := by
    rw [← List.getD_eq_getElem l d hk]
    simpa using hget
  exact hnd.getElem_inj_iff.mp this

/-- Position of i in the stable argsort of xs: the number of positions
that sort strictly before i. -/
theorem argsort_indexOf {α : Type} [LinearOrder α] (d : α) (xs : List α)
    (i : ℕ) (hi : i < xs.length) :
    List.indexOf i (argsort d xs) = (List.range xs.length).countP
      (fun j => decide (sLtRel (fun m => xs.getD m d) j i)) := by
  have hmem : i ∈ argsort d xs :=
    (argsort_perm d xs).mem_iff.mpr (List.mem_range.mpr hi)
  rw [indexOf_sorted_eq_countP (fun m => xs.getD m d) (argsort d xs)
    (argsort_nodup d xs) (argsort_sorted d xs) i hmem]
  exact (argsort_perm d xs).countP_eq _

/-- For tie-free values, the strict sort order below position i counts
exactly the strictly smaller values. -/
theorem countP_sLtRel_nodup {α : Type} [LinearOrder α] (d : α) (xs : List α)
    (hnd : xs.Nodup) (i : ℕ) (hi : i < xs.length) :
    (List.range xs.length).countP
        (fun j => decide (sLtRel (fun m => xs.getD m d) j i)) =
      xs.countP (fun y => decide (y < xs.getD i d)) := by
  rw [← countP_getD_range xs d (fun y => decide (y < xs.getD i d))]
  apply List.countP_congr
  intro j hj
  have hjlt : j < xs.length := List.mem_range.mp hj
  simp only [decide_eq_true_eq]
  constructor
  · rintro (h | ⟨he, hlt⟩)
    · exact h
    · exact absurd (nodup_getD_inj xs d hnd hjlt hi he) (Nat.ne_of_lt hlt)
  · exact fun h => Or.inl h

/-- The rank array of the accelerated kernel on a tie-free array: position
i receives the number of strictly smaller values. -/
theorem rankList_getD (xs : List ℚ) (hnd : xs.Nodup) (i : ℕ)
    (hi : i < xs.length) :
    (rankList xs).getD i 0 = xs.countP (fun y => decide (y < xs.getD i 0)) := by
  have hplen : (argsort (0 : ℚ) xs).length = xs.length := argsort_length _ _
  have hpnd : (argsort (0 : ℚ) xs).Nodup := argsort_nodup _ _
  have hperm := argsort_perm (0 : ℚ) xs
  have hRlen : (rankList xs).length = xs.length := by
    rw [rankList, argsort_length, hplen]
  -- the value r at position i of the outer argsort
  have hri : (rankList xs).getD i 0 < xs.length := by
    have hmem : (rankList xs).getD i 0 ∈ rankList xs :=
      getD_mem _ 0 i (by rw [hRlen]; exact hi)
    have : (rankList xs).getD i 0 ∈ List.range (argsort (0 : ℚ) xs).length :=
      (argsort_perm 0 (argsort (0 : ℚ) xs)).mem_iff.mp hmem
    rw [hplen] at this
    exact List.mem_range.mp this
  -- indexOf in the outer argsort of the element sitting at position i is i
  have hidx : List.indexOf ((rankList xs).getD i 0) (rankList xs) = i := by
    apply nodup_indexOf_getD (rankList xs) 0 ?_ i (by rw [hRlen]; exact hi)
    exact argsort_nodup _ _
  -- indexOf of any m < n in the outer argsort is p.getD m 0
  have houter : ∀ m, m < xs.length →
      List.indexOf m (rankList xs) = (argsort (0 : ℚ) xs).getD m 0 := by
    intro m hm
    rw [rankList, argsort_indexOf (0 : ℕ) (argsort (0 : ℚ) xs) m
      (by rw [hplen]; exact hm)]
    have heq : (List.range (argsort (0 : ℚ) xs).length).countP
        (fun j => decide (sLtRel (fun k => (argsort (0 : ℚ) xs).getD k 0) j m)) =
        (List.range (argsort (0 : ℚ) xs).length).countP
        (fun j => decide ((argsort (0 : ℚ) xs).getD j 0 <
          (argsort (0 : ℚ) xs).getD m 0)) := by
      apply List.countP_congr
      intro j hj
      have hjlt : j < (argsort (0 : ℚ) xs).length := List.mem_range.mp hj
      simp only [decide_eq_true_eq]
      constructor
      · rintro (h | ⟨he, hlt⟩)
        · exact h
        · exact absurd (nodup_getD_inj _ 0 hpnd hjlt (by rw [hplen]; exact hm) he)
            (Nat.ne_of_lt hlt)
      · exact fun h => Or.inl h
    rw [heq, countP_getD_range (argsort (0 : ℚ) xs) 0
      (fun y => decide (y < (argsort (0 : ℚ) xs).getD m 0)),
      hperm.countP_eq, countP_range_lt]
    have : (argsort (0 : ℚ) xs).getD m 0 < xs.length := by
      have hmem : (argsort (0 : ℚ) xs).getD m 0 ∈ argsort (0 : ℚ) xs :=
        getD_mem _ 0 m (by rw [hplen]; exact hm)
      exact List.mem_range.mp (hperm.mem_iff.mp hmem)
    omega
  -- hence p.getD (r_i) 0 = i
  have hpri : (argsort (0 : ℚ) xs).getD ((rankList xs).getD i 0) 0 = i := by
    rw [← houter ((rankList xs).getD i 0) hri, hidx]
  -- and p.indexOf i = r_i
  have hpindex : List.indexOf i (argsort (0 : ℚ) xs) = (rankList xs).getD i 0 := by
    conv_lhs => rw [← hpri]
    exact nodup_indexOf_getD _ 0 hpnd _ (by rw [hplen]; exact hri)
  -- finally p.indexOf i is the count of smaller values
  rw [← hpindex, argsort_indexOf (0 : ℚ) xs i hi,
    countP_sLtRel_nodup (0 : ℚ) xs hnd i hi]

theorem rankList_length (xs : List ℚ) : (rankList xs).length = xs.length := by
  rw [rankList, argsort_length, argsort_length]

/-- On a tie-free array the fractional (average) ranks are exactly the
ordinal double-argsort ranks shifted up by one. -/
theorem avgRankQ_eq_rank_add_one (xs : List ℚ) (hnd : xs.Nodup) :
    avgRankQ xs = (rankList xs).map (fun r : ℕ => (r : ℚ) + 1) := by
  apply List.ext_getElem
  · rw [avgRankQ, List.length_map, List.length_map, rankList_length]
  · intro n h1 h2
    have hlen : n < xs.length := by
      simpa [avgRankQ] using h1
    have hrlen : n < (rankList xs).length := by
      rw [rankList_length]
      exact hlen
    simp only [avgRankQ, List.getElem_map]
    have hmem : xs[n] ∈ xs := List.getElem_mem hlen
    have hcount : xs.countP (fun y => decide (y = xs[n])) = 1 := by
      have hc := List.count_eq_one_of_mem hnd hmem
      have hpred : ∀ y ∈ xs, ((y == xs[n]) = true ↔ decide (y = xs[n]) = true) := by
        intro y hy
        by_cases h : y = xs[n] <;> simp [h]
      rw [List.count, List.countP_congr hpred] at hc
      exact hc
    have hr := rankList_getD xs hnd n hlen
    rw [List.getD_eq_getElem _ 0 hrlen, List.getD_eq_getElem xs 0 hlen] at hr
    rw [hcount, hr]
    norm_num

theorem sum_map_add_const (l : List ℝ) (c : ℝ) :
    (l.map (fun x => x + c)).sum = l.sum + l.length * c := by
  induction l with
  | nil => simp
  | cons a t ih =>
    simp only [List.map_cons, List.sum_cons, ih, List.length_cons]
    push_cast
    ring

theorem listMean_map_add (l : List ℝ) (c : ℝ) (hl : l ≠ []) :
    listMean (l.map (fun x => x + c)) = listMean l + c := by
  have hn : (l.length : ℝ) ≠ 0 :=
    Nat.cast_ne_zero.mpr (List.length_pos.mpr hl).ne'
  rw [listMean, listMean, List.length_map, sum_map_add_const]
  field_simp
  ring

/-- Deviations from the mean are invariant under a uniform shift. -/
theorem devList_map_add (l : List ℝ) (c : ℝ) (hl : l ≠ []) :
    devList (l.map (fun x => x + c)) = devList l := by
  rw [devList, devList, List.map_map, listMean_map_add l c hl]
  have h : ((fun x => x - (listMean l + c)) ∘ fun x => x + c) =
      fun x => x - listMean l := by
    funext x
    simp only [Function.comp]
    ring
  rw [h]

theorem sum_nonneg_all_zero {K : Type} [LinearOrderedField K] :
    ∀ l : List K, (∀ x ∈ l, 0 ≤ x) → l.sum = 0 → ∀ x ∈ l, x = 0 := by
  intro l
  induction l with
  | nil => simp
  | cons a t ih =>
    intro hpos hsum x hx
    have hts : 0 ≤ t.sum :=
      List.sum_nonneg fun y hy => hpos y (List.mem_cons_of_mem a hy)
    have ha0 : 0 ≤ a := hpos a (List.mem_cons_self a t)
    rw [List.sum_cons] at hsum
    rcases List.mem_cons.mp hx with rfl | hxt
    · linarith
    · exact ih (fun y hy => hpos y (List.mem_cons_of_mem a hy)) (by linarith) x hxt

/-- A list with two different members has positive squared-deviation sum. -/
theorem sq_dev_sum_pos {K : Type} [LinearOrderedField K] (l : List K)
    (a b : K) (ha : a ∈ l) (hb : b ∈ l) (hab : a ≠ b) :
    0 < (l.map (fun x => (x - l.sum / l.length) ^ 2)).sum := by
  have hnn : ∀ x ∈ l.map (fun x => (x - l.sum / l.length) ^ 2), 0 ≤ x := by
    intro x hx
    obtain ⟨y, _, rfl⟩ := List.mem_map.mp hx
    exact sq_nonneg _
  rcases lt_or_eq_of_le (List.sum_nonneg hnn) with h | h
  · exact h
  · exfalso
    have hall := sum_nonneg_all_zero _ hnn h.symm
    have hA : a = l.sum / l.length := by
      have h1 := hall _ (List.mem_map_of_mem _ ha)
      have h2 := (pow_eq_zero_iff two_ne_zero).mp h1
      linarith [sub_eq_zero.mp h2]
    have hB : b = l.sum / l.length := by
      have h1 := hall _ (List.mem_map_of_mem _ hb)
      have h2 := (pow_eq_zero_iff two_ne_zero).mp h1
      linarith [sub_eq_zero.mp h2]
    exact hab (hA.trans hB.symm)

theorem popVarQ_ne_zero (xs : List ℚ) (hnd : xs.Nodup) (h2 : 2 ≤ xs.length) :
    popVarQ xs ≠ 0 := by
  obtain ⟨a, b, t, rfl⟩ : ∃ a b t, xs = a :: b :: t := by
    cases xs with
    | nil => simp at h2
    | cons a xs' =>
      cases xs' with
      | nil => simp at h2
      | cons b t => exact ⟨a, b, t, rfl⟩
  have hab : a ≠ b := by
    have hna := (List.nodup_cons.mp hnd).1
    exact fun h => hna (h ▸ List.mem_cons_self b t)
  have hpos := sq_dev_sum_pos (a :: b :: t) a b (List.mem_cons_self _ _)
    (List.mem_cons_of_mem _ (List.mem_cons_self _ _)) hab
  have hlen : (0 : ℚ) < (((a :: b :: t).length : ℕ) : ℚ) := by
    rw [List.length_cons, List.length_cons]
    push_cast
    positivity
  exact ne_of_gt (div_pos hpos hlen)

theorem sqSum_devList_eq (l : List ℝ) :
    sqSum (devList l) = (l.map (fun x => (x - l.sum / l.length) ^ 2)).sum := by
  rw [sqSum, devList, List.map_map]
  rfl

/-- The cast rank list of a tie-free array with at least two entries has a
positive squared-deviation sum (it contains the distinct ranks 0 and 1). -/
theorem sqSum_devList_rank_pos (xs : List ℚ) (hnd : xs.Nodup)
    (h2 : 2 ≤ xs.length) :
    0 < sqSum (devList ((rankList xs).map (fun r : ℕ => (r : ℝ)))) := by
  have hperm : (rankList xs).Perm (List.range (argsort (0 : ℚ) xs).length) :=
    argsort_perm 0 _
  have hlen : (argsort (0 : ℚ) xs).length = xs.length := argsort_length _ _
  have h0 : (0 : ℕ) ∈ rankList xs :=
    hperm.mem_iff.mpr (List.mem_range.mpr (by omega))
  have h1 : (1 : ℕ) ∈ rankList xs :=
    hperm.mem_iff.mpr (List.mem_range.mpr (by omega))
  have h0r : (0 : ℝ) ∈ (rankList xs).map (fun r : ℕ => (r : ℝ)) := by
    simpa using List.mem_map_of_mem (fun r : ℕ => (r : ℝ)) h0
  have h1r : (1 : ℝ) ∈ (rankList xs).map (fun r : ℕ => (r : ℝ)) := by
    simpa using List.mem_map_of_mem (fun r : ℕ => (r : ℝ)) h1
  rw [sqSum_devList_eq]
  exact sq_dev_sum_pos _ 0 1 h0r h1r (by norm_num)

/-- C3 (amended): for a single date with at least 2 observations and
tie-free factor and return values (which forces nonzero variance on both
sides), the accelerated kernel's double-argsort rank correlation produces
exactly the per-date Spearman rank correlation of the Common Evaluator.
With tied values the two ranking schemes (ordinal vs fractional) genuinely
differ: see the counterexample. -/
theorem kernel_rank_ic_matches_spearman (xs ys : List ℚ)
    (hlen : ys.length = xs.length) (h2 : 2 ≤ xs.length)
    (hx : xs.Nodup) (hy : ys.Nodup) :
    kernelRankIC xs ys = calc_ics_rank_ic xs ys ∧
      kernelRankIC xs ys = some (spearmanRho xs ys) := by
  have h2y : 2 ≤ ys.length := by omega
  have hvx := popVarQ_ne_zero xs hx h2
  have hvy := popVarQ_ne_zero ys hy h2y
  have hnltx : ¬ xs.length < 2 := by omega
  have hnex : ((rankList xs).map (fun r : ℕ => (r : ℝ))) ≠ [] := by
    intro h
    have hl := congrArg List.length h
    rw [List.length_map, rankList_length] at hl
    simp only [List.length_nil] at hl
    omega
  have hney : ((rankList ys).map (fun r : ℕ => (r : ℝ))) ≠ [] := by
    intro h
    have hl := congrArg List.length h
    rw [List.length_map, rankList_length] at hl
    simp only [List.length_nil] at hl
    omega
  have hdevx : devList ((avgRankQ xs).map (fun v : ℚ => (v : ℝ))) =
      devList ((rankList xs).map (fun r : ℕ => (r : ℝ))) := by
    rw [avgRankQ_eq_rank_add_one xs hx, List.map_map]
    have hcomp : ((fun v : ℚ => (v : ℝ)) ∘ fun r : ℕ => (r : ℚ) + 1) =
        ((fun x : ℝ => x + 1) ∘ fun r : ℕ => (r : ℝ)) := by
      funext r
      simp only [Function.comp]
      push_cast
      ring
    rw [hcomp, ← List.map_map]
    exact devList_map_add ((rankList xs).map (fun r : ℕ => (r : ℝ))) 1 hnex
  have hdevy : devList ((avgRankQ ys).map (fun v : ℚ => (v : ℝ))) =
      devList ((rankList ys).map (fun r : ℕ => (r : ℝ))) := by
    rw [avgRankQ_eq_rank_add_one ys hy, List.map_map]
    have hcomp : ((fun v : ℚ => (v : ℝ)) ∘ fun r : ℕ => (r : ℚ) + 1) =
        ((fun x : ℝ => x + 1) ∘ fun r : ℕ => (r : ℝ)) := by
      funext r
      simp only [Function.comp]
      push_cast
      ring
    rw [hcomp, ← List.map_map]
    exact devList_map_add ((rankList ys).map (fun r : ℕ => (r : ℝ))) 1 hney
  have hrho : spearmanRho xs ys =
      dotSum (devList ((rankList xs).map (fun r : ℕ => (r : ℝ))))
          (devList ((rankList ys).map (fun r : ℕ => (r : ℝ)))) /
        (Real.sqrt (sqSum (devList ((rankList xs).map (fun r : ℕ => (r : ℝ))))) *
          Real.sqrt (sqSum (devList ((rankList ys).map (fun r : ℕ => (r : ℝ)))))) := by
    rw [spearmanRho, pearsonR, hdevx, hdevy]
  have hsx := sqSum_devList_rank_pos xs hx h2
  have hsy := sqSum_devList_rank_pos ys hy h2y
  have hden : 0 < Real.sqrt
      (sqSum (devList ((rankList xs).map (fun r : ℕ => (r : ℝ)))) *
        sqSum (devList ((rankList ys).map (fun r : ℕ => (r : ℝ))))) :=
    Real.sqrt_pos.mpr (mul_pos hsx hsy)
  have hker : kernelRankIC xs ys = some
      (dotSum (devList ((rankList xs).map (fun r : ℕ => (r : ℝ))))
          (devList ((rankList ys).map (fun r : ℕ => (r : ℝ)))) /
        Real.sqrt (sqSum (devList ((rankList xs).map (fun r : ℕ => (r : ℝ)))) *
          sqSum (devList ((rankList ys).map (fun r : ℕ => (r : ℝ)))))) := by
    simp only [kernelRankIC]
    rw [if_neg hnltx, if_neg (by push_neg; exact ⟨hvx, hvy⟩), if_pos hden]
  have hsqrt : Real.sqrt
      (sqSum (devList ((rankList xs).map (fun r : ℕ => (r : ℝ)))) *
        sqSum (devList ((rankList ys).map (fun r : ℕ => (r : ℝ))))) =
      Real.sqrt (sqSum (devList ((rankList xs).map (fun r : ℕ => (r : ℝ))))) *
        Real.sqrt (sqSum (devList ((rankList ys).map (fun r : ℕ => (r : ℝ))))) :=
    Real.sqrt_mul (le_of_lt hsx) _
  constructor
  · rw [hker, calc_ics_rank_ic,
      if_neg (by push_neg; exact ⟨by omega, hvx, hvy⟩), hrho, hsqrt]
  · rw [hker, hrho, hsqrt]

/-- Witness for C3: the tie-free date with factor [1, 2] and return [2, 1];
both rankings agree (the common value is the Spearman rho, here -1). -/
theorem kernel_rank_ic_matches_spearman_witness :
    ([(1 : ℚ), 2].Nodup ∧ [(2 : ℚ), 1].Nodup ∧
        ([(2 : ℚ), 1] : List ℚ).length = ([(1 : ℚ), 2] : List ℚ).length ∧
        2 ≤ ([(1 : ℚ), 2] : List ℚ).length) ∧
      kernelRankIC [1, 2] [2, 1] = some (spearmanRho [1, 2] [2, 1]) := by
  have hx : [(1 : ℚ), 2].Nodup := by norm_num
  have hy : [(2 : ℚ), 1].Nodup := by norm_num
  exact ⟨⟨hx, hy, rfl, by norm_num⟩,
    (kernel_rank_ic_matches_spearman [1, 2] [2, 1] rfl (by norm_num) hx hy).2⟩

/-- Counterexample for C3 as stated: the single date with factor values
[1, 1, 2] and returns [1, 2, 3] is non-degenerate in the claim's sense
(3 observations, nonzero variance in both arrays), yet the kernel's
ordinal double-argsort ranks are [0, 1, 2] on both sides, giving rank
correlation 1, while the Common Evaluator's Spearman correlation uses the
fractional ranks [1.5, 1.5, 3] and yields 1.5/sqrt 3 < 1. -/
theorem kernel_rank_ic_ne_spearman :
    (2 ≤ ([(1 : ℚ), 1, 2] : List ℚ).length ∧ popVarQ [(1 : ℚ), 1, 2] ≠ 0 ∧
        popVarQ [(1 : ℚ), 2, 3] ≠ 0) ∧
      kernelRankIC [1, 1, 2] [1, 2, 3] = some 1 ∧
      calc_ics_rank_ic [1, 1, 2] [1, 2, 3] ≠ some 1 := by
  have hv1 : popVarQ [(1 : ℚ), 1, 2] ≠ 0 := by
    norm_num [popVarQ]
  have hv2 : popVarQ [(1 : ℚ), 2, 3] ≠ 0 := by
    norm_num [popVarQ]
  have hr1 : rankList [(1 : ℚ), 1, 2] = [0, 1, 2] := by decide
  have hr2 : rankList [(1 : ℚ), 2, 3] = [0, 1, 2] := by decide
  have hmap : ([0, 1, 2] : List ℕ).map (fun r : ℕ => (r : ℝ)) = [0, 1, 2] := by
    norm_num
  have hdev : devList [(0 : ℝ), 1, 2] = [-1, 0, 1] := by
    norm_num [devList, listMean]
  have hdot : dotSum [(-1 : ℝ), 0, 1] [(-1 : ℝ), 0, 1] = 2 := by
    norm_num [dotSum]
  have hsq : sqSum [(-1 : ℝ), 0, 1] = 2 := by
    norm_num [sqSum]
  have hsqrt4 : Real.sqrt ((2 : ℝ) * 2) = 2 := by
    rw [show ((2 : ℝ) * 2) = 2 ^ 2 by norm_num,
      Real.sqrt_sq (by norm_num : (0 : ℝ) ≤ 2)]
  have hker : kernelRankIC [1, 1, 2] [1, 2, 3] = some 1 := by
    simp only [kernelRankIC]
    rw [if_neg (by norm_num), if_neg (by push_neg; exact ⟨hv1, hv2⟩)]
    rw [hr1, hr2, hmap, hdev, hdot, hsq, hsqrt4]
    rw [if_pos (by norm_num : (0 : ℝ) < 2)]
    norm_num
  have havg1 : avgRankQ [(1 : ℚ), 1, 2] = [3/2, 3/2, 3] := by
    norm_num [avgRankQ, List.countP_cons, List.countP_nil, decide_eq_true_eq]
  have havg2 : avgRankQ [(1 : ℚ), 2, 3] = [1, 2, 3] := by
    norm_num [avgRankQ, List.countP_cons, List.countP_nil, decide_eq_true_eq]
  have hsp : spearmanRho [1, 1, 2] [1, 2, 3] =
      (3 / 2) / (Real.sqrt (3 / 2) * Real.sqrt 2) := by
    rw [spearmanRho, havg1, havg2, pearsonR]
    norm_num [devList, listMean, dotSum, sqSum]
  have hcalc : calc_ics_rank_ic [1, 1, 2] [1, 2, 3] =
      some (spearmanRho [1, 1, 2] [1, 2, 3]) := by
    rw [calc_ics_rank_ic, if_neg (by push_neg; exact ⟨by norm_num, hv1, hv2⟩)]
  refine ⟨⟨by norm_num, hv1, hv2⟩, hker, ?_⟩
  intro h
  rw [hcalc, hsp] at h
  have h1 : (3 / 2 : ℝ) / (Real.sqrt (3 / 2) * Real.sqrt 2) = 1 :=
    Option.some.inj h
  have hpos : 0 < Real.sqrt (3 / 2) * Real.sqrt 2 :=
    mul_pos (Real.sqrt_pos.mpr (by norm_num)) (Real.sqrt_pos.mpr (by norm_num))
  have hs2 : (Real.sqrt (3 / 2) * Real.sqrt 2) ^ 2 = 3 := by
    rw [mul_pow, Real.sq_sqrt (by norm_num : (0 : ℝ) ≤ 3 / 2),
      Real.sq_sqrt (by norm_num : (0 : ℝ) ≤ 2)]
    norm_num
  have heq : (3 / 2 : ℝ) = Real.sqrt (3 / 2) * Real.sqrt 2 :=
    (div_eq_one_iff_eq (ne_of_gt hpos)).mp h1
  rw [← heq] at hs2
  norm_num at hs2

end FactorFrameworkV2
